import Mathlib

/-!
Formal model of the `Extract` spectral-extraction module.

A shallow embedding of `src/extract.py` (class `Extract`): the geometry
kernel `intersection_area`, the PSF builders (`tophat_psf`, `gaussian_psf`,
`moffat_psf`), the curve-of-growth analyzer, the image collapser
`make_collapsed_image`, the weight-matrix builder `build_weights`, and the
spectral combiner `get_spectrum`.

Modelling conventions:
* floating point numbers are modelled by `ℝ`; `NaN` cells are modelled by
  `Option ℝ` (`none` = NaN) where a claim depends on NaN handling;
* 2-d numpy arrays become functions `ℕ → ℕ → ℝ` together with explicit
  extents, and axis sums become `Finset.range` sums;
* external library calls (`scipy.interpolate.griddata`,
  `scipy.interpolate.LinearNDInterpolator`, `astropy.convolution.convolve`)
  are oracle parameters; where a property of the oracle is needed it is
  stated as an explicit predicate taken from the documented behaviour of
  the library (triangulated linear interpolation with constant fill value
  outside the convex hull).
-/

noncomputable section

namespace Remedy

/-- Model of `np.median` of a list of reals: sort ascending; the middle element for
odd length, and the mean of the two middle elements for even length. -/
def npMedian (l : List ℝ) : ℝ :=
  let s := l.mergeSort (fun a b => decide (a ≤ b))
  if l.length % 2 = 1 then s.getD (l.length / 2) 0
  else (s.getD (l.length / 2 - 1) 0 + s.getD (l.length / 2) 0) / 2

/-! ## Spectral combiner: `Extract.get_spectrum` -/

/-- The `spectrum` array as first computed by `get_spectrum` (line 378-379), before
the low-weight channel masking: per channel `j`,
`np.sum(data*mask*weights, axis=0) / np.sum(mask*weights**2, axis=0)`. -/
def spectrumRaw (nf : ℕ) (data mask weights : ℕ → ℕ → ℝ) : ℕ → ℝ := fun j =>
  (∑ f ∈ Finset.range nf, data f j * mask f j * weights f j) /
  (∑ f ∈ Finset.range nf, mask f j * weights f j ^ 2)

/-- The `spectrum_error` array as first computed by `get_spectrum` (line 380-381):
`np.sqrt(np.sum(error**2*mask*weights, axis=0)) / np.sum(mask*weights**2, axis=0)`. -/
def spectrumErrorRaw (nf : ℕ) (error mask weights : ℕ → ℕ → ℝ) : ℕ → ℝ := fun j =>
  Real.sqrt (∑ f ∈ Finset.range nf, error f j ^ 2 * mask f j * weights f j) /
  (∑ f ∈ Finset.range nf, mask f j * weights f j ^ 2)

/-- The channel weight `w = np.sum(mask * weights**2, axis=0)` (line 383). -/
def wTot (nf : ℕ) (mask weights : ℕ → ℕ → ℝ) : ℕ → ℝ := fun j =>
  ∑ f ∈ Finset.range nf, mask f j * weights f j ^ 2

/-- Model of `Extract.get_spectrum`: raw weighted combination followed by setting
every channel with `w < np.median(w)*0.1` to NaN (`none`) in both outputs.
`nf` is the number of fibers and `nw` the number of wavelength channels. -/
def get_spectrum (nf nw : ℕ) (data error mask weights : ℕ → ℕ → ℝ) :
    (ℕ → Option ℝ) × (ℕ → Option ℝ) :=
  let w := wTot nf mask weights
  let med := npMedian ((List.range nw).map w)
  (fun j => if w j < med * 0.1 then none else some (spectrumRaw nf data mask weights j),
   fun j => if w j < med * 0.1 then none else some (spectrumErrorRaw nf error mask weights j))

/-! ## Geometry kernel: `Extract.intersection_area` -/

/-- Model of `Extract.intersection_area d R r`: area of intersection of two circles
of radii `R`, `r` with centers a distance `d` apart (lines 87-99). -/
def intersection_area (d R r : ℝ) : ℝ :=
  if d ≤ |R - r| then Real.pi * min R r ^ 2
  else if d ≥ r + R then 0
  else
    r ^ 2 * Real.arccos ((d ^ 2 + r ^ 2 - R ^ 2) / (2 * d * r)) +
    R ^ 2 * Real.arccos ((d ^ 2 + R ^ 2 - r ^ 2) / (2 * d * R)) -
    0.5 * (r ^ 2 * Real.sin (2 * Real.arccos ((d ^ 2 + r ^ 2 - R ^ 2) / (2 * d * r))) +
           R ^ 2 * Real.sin (2 * Real.arccos ((d ^ 2 + R ^ 2 - r ^ 2) / (2 * d * R))))

/-- In the overlap branch the first arccos argument lies strictly inside
`(-1, 1)`. (The second argument is the same expression with `R` and `r`
exchanged.) -/
theorem chord_arg_mem_Ioo (d R r : ℝ) (hR : 0 ≤ R)
    (h1 : |R - r| < d) (h2 : d < R + r) (hdr : 0 < d) (hr : 0 < r) :
    (d ^ 2 + r ^ 2 - R ^ 2) / (2 * d * r) ∈ Set.Ioo (-1 : ℝ) 1 := by
  have hden : 0 < 2 * d * r := by positivity
  constructor
  · rw [neg_lt, ← neg_div, div_lt_one hden]
    have hRlt : R < d + r := by
      have := abs_lt.mp h1
      linarith [this.1]
    have hsq : R ^ 2 < (d + r) ^ 2 := by
      have h0 : -(d + r) < R := by linarith
      nlinarith
    nlinarith
  · rw [div_lt_one hden]
    have hdr1 : d - r < R := by linarith
    have hdr2 : -(R) < d - r := by
      have := abs_lt.mp h1
      linarith [this.2]
    have hsq : (d - r) ^ 2 < R ^ 2 := by nlinarith
    nlinarith

/-! ## PSF images and the three PSF builders -/

/-- A 3-layer PSF image as returned by the PSF builders: layer 0 is the
intensity `z`, layers 1 and 2 are the `x` and `y` coordinate grids, all of
shape `n × m`. -/
structure PSFImage where
  n : ℕ
  m : ℕ
  z : ℕ → ℕ → ℝ
  xg : ℕ → ℕ → ℝ
  yg : ℕ → ℕ → ℝ

/-- Total of the intensity layer (`zarray[0].sum()`). -/
def sumZ (p : PSFImage) : ℝ :=
  ∑ i ∈ Finset.range p.n, ∑ j ∈ Finset.range p.m, p.z i j

/-- Normalization step `zarray[0] /= zarray[0].sum()`: divide the intensity layer by its total. -/
def normalizePSF (p : PSFImage) : PSFImage :=
  { p with z := fun i j => p.z i j / sumZ p }

theorem sumZ_normalizePSF (p : PSFImage) (h : sumZ p ≠ 0) :
    sumZ (normalizePSF p) = 1 := by
  have : sumZ (normalizePSF p) = sumZ p / sumZ p := by
    simp only [sumZ, normalizePSF, ← Finset.sum_div]
  rw [this, div_self h]

/-- Number of samples of `np.arange(lo, hi, step)` (for `step > 0`):
`⌈(hi - lo) / step⌉`. -/
def arangeLen (lo hi step : ℝ) : ℕ := ⌈(hi - lo) / step⌉₊

/-- Sample number `i` of `np.arange(lo, hi, step)`. -/
def arangeVal (lo step : ℝ) (i : ℕ) : ℝ := lo + i * step

/-- Side length of the PSF builders' grid
`np.arange(-boxsize/2, boxsize/2 + scale, scale)`. -/
def psfGridN (boxsize scale : ℝ) : ℕ :=
  arangeLen (0 - boxsize / 2) (0 + boxsize / 2 + scale) scale

/-- Coordinate number `i` of the PSF builders' grid. -/
def psfGridVal (boxsize scale : ℝ) (i : ℕ) : ℝ :=
  arangeVal (0 - boxsize / 2) scale i

/-- Model of `astropy.modeling.models.Gaussian2D.evaluate` (closed form). -/
def gaussian2D (amplitude xmean ymean xstd ystd theta x y : ℝ) : ℝ :=
  let cost2 := Real.cos theta ^ 2
  let sint2 := Real.sin theta ^ 2
  let sin2t := Real.sin (2 * theta)
  let xstd2 := xstd ^ 2
  let ystd2 := ystd ^ 2
  let xdiff := x - xmean
  let ydiff := y - ymean
  let a := 0.5 * (cost2 / xstd2 + sint2 / ystd2)
  let b := 0.5 * (sin2t / xstd2 - sin2t / ystd2)
  let c := 0.5 * (sint2 / xstd2 + cost2 / ystd2)
  amplitude * Real.exp (-(a * xdiff ^ 2 + b * xdiff * ydiff + c * ydiff ^ 2))

/-- Model of `astropy.modeling.models.Moffat2D.evaluate` (closed form). -/
def moffat2D (amplitude x0 y0 gamma alpha x y : ℝ) : ℝ :=
  amplitude * (1 + ((x - x0) ^ 2 + (y - y0) ^ 2) / gamma ^ 2) ^ (-alpha)

/-- Body of `Extract.gaussian_psf` before the final normalization: the elliptical
Gaussian evaluated on the regular meshgrid (`xgrid[i][j] = x[j]`,
`ygrid[i][j] = y[i]`). -/
def gaussianRaw (xstd ystd theta boxsize scale : ℝ) : PSFImage :=
  { n := psfGridN boxsize scale
    m := psfGridN boxsize scale
    z := fun i j => gaussian2D 1 0 0 xstd ystd theta
      (psfGridVal boxsize scale j) (psfGridVal boxsize scale i)
    xg := fun _ j => psfGridVal boxsize scale j
    yg := fun i _ => psfGridVal boxsize scale i }

/-- Model of `Extract.gaussian_psf`. -/
def gaussian_psf (xstd ystd theta boxsize scale : ℝ) : PSFImage :=
  normalizePSF (gaussianRaw xstd ystd theta boxsize scale)

/-- Body of `Extract.moffat_psf` before the final normalization; the width is
`gamma = 0.5·seeing / sqrt(2^(1/alpha) − 1)`. -/
def moffatRaw (seeing boxsize scale alpha : ℝ) : PSFImage :=
  { n := psfGridN boxsize scale
    m := psfGridN boxsize scale
    z := fun i j => moffat2D 1 0 0
      (0.5 * seeing / Real.sqrt ((2 : ℝ) ^ (1 / alpha) - 1)) alpha
      (psfGridVal boxsize scale j) (psfGridVal boxsize scale i)
    xg := fun _ j => psfGridVal boxsize scale j
    yg := fun i _ => psfGridVal boxsize scale i }

/-- Model of `Extract.moffat_psf`. -/
def moffat_psf (seeing boxsize scale alpha : ℝ) : PSFImage :=
  normalizePSF (moffatRaw seeing boxsize scale alpha)

/-- Oracle for `scipy.interpolate.griddata(points, values, (xgrid, ygrid),
method='linear')` at one query point; `none` models the NaN fill outside
the convex hull of the sample points. -/
def GridDataOracle : Type :=
  List (ℝ × ℝ) → List ℝ → ℝ → ℝ → Option ℝ

/-- Element number `k` of `np.linspace(0, 2π, 360)`. -/
def tophatT (k : ℕ) : ℝ := 0 + k * (2 * Real.pi - 0) / 359

/-- Length of the tophat ring-radius list
`np.arange(radius - fibradius, radius + fibradius·7/6, fibradius/6)`. -/
def tophatRLen (radius fibradius : ℝ) : ℕ :=
  arangeLen (radius - fibradius) (radius + fibradius * (7 / 6)) (1 / 6 * fibradius)

/-- Ring radius number `i` of the tophat sampling. -/
def tophatRVal (radius fibradius : ℝ) (i : ℕ) : ℝ :=
  arangeVal (radius - fibradius) (1 / 6 * fibradius) i

/-- The scattered sample points of `Extract.tophat_psf` (ring-major order,
as produced by `np.hstack`). -/
def tophatPts (radius fibradius : ℝ) : List (ℝ × ℝ) :=
  (List.range (tophatRLen radius fibradius)).flatMap fun i =>
    (List.range 360).map fun k =>
      (Real.cos (tophatT k) * tophatRVal radius fibradius i,
       Real.sin (tophatT k) * tophatRVal radius fibradius i)

/-- The scattered sample values of `Extract.tophat_psf`: the fiber-overlap
area at each ring radius, normalized by the fiber area. -/
def tophatVals (radius fibradius : ℝ) : List ℝ :=
  (List.range (tophatRLen radius fibradius)).flatMap fun i =>
    (List.range 360).map fun _ =>
      intersection_area (tophatRVal radius fibradius i) radius fibradius /
        (Real.pi * fibradius ^ 2)

/-- Body of `Extract.tophat_psf` before the final normalization: scatter-interpolate
the ring samples onto the regular grid and replace NaN gaps by `0`. -/
def tophatRaw (gd : GridDataOracle) (radius boxsize scale fibradius : ℝ) : PSFImage :=
  { n := psfGridN boxsize scale
    m := psfGridN boxsize scale
    z := fun i j => (gd (tophatPts radius fibradius) (tophatVals radius fibradius)
      (psfGridVal boxsize scale j) (psfGridVal boxsize scale i)).getD 0
    xg := fun _ j => psfGridVal boxsize scale j
    yg := fun i _ => psfGridVal boxsize scale i }

/-- Model of `Extract.tophat_psf`. -/
def tophat_psf (gd : GridDataOracle) (radius boxsize scale fibradius : ℝ) : PSFImage :=
  normalizePSF (tophatRaw gd radius boxsize scale fibradius)

/-- The builders' grid is nonempty for `scale > 0`, `boxsize ≥ 0`. -/
theorem psfGridN_pos (boxsize scale : ℝ) (hs : 0 < scale) (hb : 0 ≤ boxsize) :
    0 < psfGridN boxsize scale := by
  rw [psfGridN, arangeLen, Nat.ceil_pos]
  have hnum : (0 : ℝ) < 0 + boxsize / 2 + scale - (0 - boxsize / 2) := by linarith
  exact div_pos hnum hs

/-- The (unnormalized) elliptical Gaussian is strictly positive everywhere. -/
theorem gaussian2D_pos (xstd ystd theta x y : ℝ) :
    0 < gaussian2D 1 0 0 xstd ystd theta x y := by
  simp only [gaussian2D, one_mul]
  exact Real.exp_pos _

/-- The (unnormalized) Moffat profile is strictly positive everywhere. -/
theorem moffat2D_pos (gamma alpha x y : ℝ) :
    0 < moffat2D 1 0 0 gamma alpha x y := by
  simp only [moffat2D, one_mul]
  refine Real.rpow_pos_of_pos ?_ _
  have h0 : (0 : ℝ) ≤ ((x - 0) ^ 2 + (y - 0) ^ 2) / gamma ^ 2 := by positivity
  linarith

/-- A PSF image with positive entries on a nonempty grid has positive total. -/
theorem sumZ_pos_of_pos (p : PSFImage) (hn : 0 < p.n) (hm : 0 < p.m)
    (h : ∀ i j, 0 < p.z i j) : 0 < sumZ p :=
  Finset.sum_pos
    (fun i _ => Finset.sum_pos (fun j _ => h i j) ⟨0, Finset.mem_range.mpr hm⟩)
    ⟨0, Finset.mem_range.mpr hn⟩

/-! ## Curve-of-growth analyzer: `Extract.get_psf_curve_of_growth` -/

/-- Model of `np.max` of a list of reals (the list is nonempty in every use). -/
def npMaxList (l : List ℝ) : ℝ := l.foldr max (l.headD 0)

/-- Raveled pairs `(radius, intensity)` of a PSF image:
`r = np.sqrt(psf[1]**2 + psf[2]**2).ravel()` paired with `psf[0].ravel()`
in row-major order. -/
def cogPairs (p : PSFImage) : List (ℝ × ℝ) :=
  (List.range p.n).flatMap fun i => (List.range p.m).map fun j =>
    (Real.sqrt (p.xg i j ^ 2 + p.yg i j ^ 2), p.z i j)

/-- The pairs sorted by ascending radius (`inds = np.argsort(r)`). -/
def cogSorted (p : PSFImage) : List (ℝ × ℝ) :=
  (cogPairs p).mergeSort (fun a b => decide (a.1 ≤ b.1))

/-- The bound `maxr = psf[1].max()`: the largest x-grid value. -/
def cogMaxr (p : PSFImage) : ℝ :=
  npMaxList ((List.range p.n).flatMap fun i => (List.range p.m).map fun j => p.xg i j)

/-- The sorted pairs restricted to radius at most `maxr`
(`sel = r[inds] <= maxr`). -/
def cogSel (p : PSFImage) : List (ℝ × ℝ) :=
  (cogSorted p).filter fun a => decide (a.1 ≤ cogMaxr p)

/-- Model of `Extract.get_psf_curve_of_growth`: the restricted sorted radii, and the
cumulative sum of the correspondingly ordered intensities normalized by
their total. -/
def get_psf_curve_of_growth (p : PSFImage) : List ℝ × List ℝ :=
  ((cogSel p).map Prod.fst,
   (List.range (cogSel p).length).map fun k =>
     (((cogSel p).take (k + 1)).map Prod.snd).sum / ((cogSel p).map Prod.snd).sum)

/-- The sorted pair list is pairwise non-decreasing in the radius. -/
theorem cogSorted_pairwise (p : PSFImage) :
    List.Pairwise (fun a b : ℝ × ℝ => a.1 ≤ b.1) (cogSorted p) := by
  have h := @List.sorted_mergeSort (ℝ × ℝ) (fun a b => decide (a.1 ≤ b.1))
    (fun a b c hab hbc => by
      simp only [decide_eq_true_eq] at hab hbc ⊢
      exact le_trans hab hbc)
    (fun a b => by
      simp only [Bool.or_eq_true, decide_eq_true_eq]
      exact le_total a.1 b.1)
    (cogPairs p)
  exact h.imp (fun hab => by simpa using hab)

/-- Every intensity appearing in the restricted window is one of the PSF's
intensity samples. -/
theorem cogSel_mem_z (p : PSFImage) (q : ℝ × ℝ) (hq : q ∈ cogSel p) :
    ∃ i j, i < p.n ∧ j < p.m ∧ q.2 = p.z i j := by
  have h1 : q ∈ cogSorted p := (List.mem_filter.mp hq).1
  have h2 : q ∈ cogPairs p := List.mem_mergeSort.mp h1
  rcases List.mem_flatMap.mp h2 with ⟨i, hi, hmem⟩
  rcases List.mem_map.mp hmem with ⟨j, hj, hqe⟩
  exact ⟨i, j, List.mem_range.mp hi, List.mem_range.mp hj, by rw [← hqe]⟩

/-- Partial sums of a list of non-negative reals are monotone. -/
theorem take_sum_mono (l : List ℝ) (h : ∀ x ∈ l, 0 ≤ x) {k k' : ℕ} (hk : k ≤ k') :
    (l.take k).sum ≤ (l.take k').sum := by
  have h1 : l.take k = (l.take k').take k := by
    rw [List.take_take, min_eq_left hk]
  have h2 : ((l.take k').take k).sum + ((l.take k').drop k).sum = (l.take k').sum :=
    List.sum_take_add_sum_drop _ _
  have h3 : 0 ≤ ((l.take k').drop k).sum :=
    List.sum_nonneg fun x hx => h x (List.mem_of_mem_take (List.mem_of_mem_drop hx))
  rw [h1]
  linarith

/-! ## Image collapser: `Extract.make_collapsed_image` -/

/-- Python `int()` cast of a float: truncation toward zero. -/
def truncInt (x : ℝ) : ℤ := if 0 ≤ x then ⌊x⌋ else ⌈x⌉

/-- Model of `np.mean` of a list of naturals, as a real. -/
def npMeanNat (l : List ℕ) : ℝ := (l.map fun i : ℕ => (i : ℝ)).sum / l.length

/-- Section sizes of `np.array_split(l, n)`: `l % n` sections of size
`l / n + 1` followed by `n - l % n` sections of size `l / n`. -/
def splitSizes (len n : ℕ) : List ℕ :=
  (List.range n).map fun i => if i < len % n then len / n + 1 else len / n

/-- Split a list into consecutive sections of the given sizes. -/
def arraySplitGo {α : Type} : List α → List ℕ → List (List α)
  | _, [] => []
  | xs, s :: ss => xs.take s :: arraySplitGo (xs.drop s) ss

/-- Model of `np.array_split(xs, n)`. -/
def array_split {α : Type} (xs : List α) (n : ℕ) : List (List α) :=
  arraySplitGo xs (splitSizes xs.length n)

/-- The wavelength indices selected for collapsing (line 262-263):
`sel = (wave > wrange[0]) * (wave <= wrange[1])`, then `I[sel]`. -/
def selIndices (wave : ℕ → ℝ) (b : ℕ) (lo hi : ℝ) : List ℕ :=
  (List.range b).filter fun j => decide (lo < wave j) && decide (wave j ≤ hi)

/-- Representative ADR index of one wavelength chunk (line 264-265):
`np.mean(xi)` cast to `int` (truncation). -/
def chunkRep (c : List ℕ) : ℤ := truncInt (npMeanNat c)

/-- Element number `j` of `np.linspace(lo, hi, num)`. -/
def linspaceVal (lo hi : ℝ) (num j : ℕ) : ℝ :=
  if num ≤ 1 then lo else lo + j * ((hi - lo) / ((num : ℝ) - 1))

/-- Model of `np.median` over a list with possible NaN entries: any NaN makes the
result NaN (`none`). -/
def npMedianOpt (l : List (Option ℝ)) : Option ℝ :=
  if l.all Option.isSome then some (npMedian (l.map fun o => o.getD 0)) else none

/-- The `interp_kind` fallback of `make_collapsed_image` (lines 271-274):
anything other than `"linear"` or `"cubic"` is replaced by `"linear"` and
two warnings are logged. Returns the kind actually used and the warnings. -/
def normalizeInterpKind (interp_kind : String) : String × List String :=
  if interp_kind = "linear" ∨ interp_kind = "cubic" then (interp_kind, [])
  else ("linear",
    ["interp_kind must be \"linear\" or \"cubic\"", "Using \"linear\" for interp_kind"])

/-- Output of `make_collapsed_image`: the logged warnings, the collapsed
image, and the re-centered coordinate grids. -/
structure CollapsedImage where
  warnings : List String
  img : ℕ → ℕ → ℝ
  xg : ℕ → ℕ → ℝ
  yg : ℕ → ℕ → ℝ

/-- Model of `Extract.make_collapsed_image`.  Here `gd` is the
`scipy.interpolate.griddata` oracle (`none` = NaN outside the convex
hull), `conv` the `astropy.convolution.convolve` oracle; `wave`, `ADRx`,
`ADRy` are the session state; `a`, `b` are the fiber and wavelength counts. -/
def make_collapsed_image (gd : String → List (ℝ × ℝ) → List ℝ → ℝ → ℝ → Option ℝ)
    (conv : ℝ → (ℕ → ℕ → Option ℝ) → (ℕ → ℕ → Option ℝ))
    (wave : ℕ → ℝ) (ADRx ADRy : ℤ → ℝ)
    (xc yc : ℝ) (xloc yloc : ℕ → ℝ) (data mask : ℕ → ℕ → ℝ) (a b : ℕ)
    (scale seeing_fac boxsize wlo whi : ℝ) (nchunks : ℕ)
    (convolve_image : Bool) (interp_kind : String) : CollapsedImage :=
  let N := (truncInt (boxsize / scale)).toNat
  let xgrid := fun (_ : ℕ) (j : ℕ) => linspaceVal (xc - boxsize / 2) (xc + boxsize / 2) N j
  let ygrid := fun (i : ℕ) (_ : ℕ) => linspaceVal (yc - boxsize / 2) (yc + boxsize / 2) N i
  let area := Real.pi * 0.75 ^ 2
  let kindWarn := normalizeInterpKind interp_kind
  let chunks := array_split (selIndices wave b wlo whi) nchunks
  let chunkImg := fun (c : List ℕ) =>
    let valid := fun f => c.filter fun w => !decide (mask f w < 1e-8)
    let fiberVal := fun f => npMedian ((valid f).map (data f))
    let imageSum := ∑ f ∈ Finset.range a, if valid f = [] then 0 else fiberVal f
    let goodFibers := (List.range a).filter fun f => !decide (valid f = [])
    let rep := chunkRep c
    let pts := goodFibers.map fun f => (xloc f - ADRx rep, yloc f - ADRy rep)
    let vals := goodFibers.map fun f => fiberVal f / imageSum
    let raw := fun (i j : ℕ) => (gd kindWarn.1 pts vals (xgrid i j) (ygrid i j)).map
      fun v => v * scale ^ 2 / area
    if convolve_image then conv (seeing_fac / scale / 2.35) raw else raw
  { warnings := kindWarn.2
    img := fun i j => (npMedianOpt (chunks.map fun c => chunkImg c i j)).getD 0
    xg := fun i j => xgrid i j - xc
    yg := fun i j => ygrid i j - yc }

/-! ### Chunks of a monotone wavelength grid are runs of consecutive indices -/

theorem range'_take (t s k : ℕ) : (List.range' s k).take t = List.range' s (min t k) := by
  induction t generalizing s k with
  | zero => simp
  | succ t ih =>
    cases k with
    | zero => simp
    | succ k =>
      rw [List.range'_succ, List.take_succ_cons, ih, Nat.succ_min_succ, List.range'_succ]

theorem range'_drop (t s k : ℕ) : (List.range' s k).drop t = List.range' (s + t) (k - t) := by
  induction t generalizing s k with
  | zero => simp
  | succ t ih =>
    cases k with
    | zero => simp
    | succ k =>
      rw [List.range'_succ, List.drop_succ_cons, ih,
        show s + 1 + t = s + (t + 1) from by omega,
        show k - t = k + 1 - (t + 1) from by omega]

/-- Every section produced by `arraySplitGo` from a run of consecutive
integers is itself a run of consecutive integers. -/
theorem arraySplitGo_range' (sizes : List ℕ) :
    ∀ (s k : ℕ) (c : List ℕ), c ∈ arraySplitGo (List.range' s k) sizes →
      ∃ s' k', c = List.range' s' k' := by
  induction sizes with
  | nil =>
    intro s k c hc
    simp [arraySplitGo] at hc
  | cons sz ss ih =>
    intro s k c hc
    simp only [arraySplitGo] at hc
    rcases List.mem_cons.mp hc with h | h
    · exact ⟨s, min sz k, by rw [h, range'_take]⟩
    · rw [range'_drop] at h
      exact ih _ _ _ h

/-- For a monotone wavelength grid the selected index list is a run of
consecutive integers. -/
theorem selIndices_eq_range' (wave : ℕ → ℝ) (lo hi : ℝ) (hmono : Monotone wave) (b : ℕ) :
    ∃ s, selIndices wave b lo hi = List.range' s (selIndices wave b lo hi).length := by
  induction b with
  | zero => exact ⟨0, rfl⟩
  | succ b ih =>
    rcases ih with ⟨s, hs⟩
    have hstep : selIndices wave (b + 1) lo hi =
        selIndices wave b lo hi ++
          List.filter (fun j => decide (lo < wave j) && decide (wave j ≤ hi)) [b] := by
      rw [selIndices, selIndices, List.range_succ, List.filter_append]
    by_cases hPb : lo < wave b ∧ wave b ≤ hi
    · have hfb : List.filter (fun j => decide (lo < wave j) && decide (wave j ≤ hi)) [b] =
          [b] := by
        simp [List.filter, hPb.1, hPb.2]
      rw [hstep, hfb]
      rcases Nat.eq_zero_or_pos (selIndices wave b lo hi).length with h0 | hpos
      · rw [List.length_eq_zero.mp h0]
        exact ⟨b, by simp⟩
      · have hmem : ∀ x ∈ selIndices wave b lo hi, x < b ∧ lo < wave x ∧ wave x ≤ hi := by
          intro x hx
          rcases List.mem_filter.mp hx with ⟨hxr, hxp⟩
          simp only [Bool.and_eq_true, decide_eq_true_eq] at hxp
          exact ⟨List.mem_range.mp hxr, hxp.1, hxp.2⟩
        have hsk : s + (selIndices wave b lo hi).length ≤ b := by
          have hlast : s + (selIndices wave b lo hi).length - 1 ∈
              selIndices wave b lo hi := by
            rw [hs]
            simp only [List.length_range']
            exact List.mem_range'_1.mpr ⟨by omega, by omega⟩
          have := (hmem _ hlast).1
          omega
        have hsb : s + (selIndices wave b lo hi).length = b := by
          by_contra hne
          have hlt : s + (selIndices wave b lo hi).length < b := by omega
          have hsmem : s ∈ selIndices wave b lo hi := by
            rw [hs]
            exact List.mem_range'_1.mpr ⟨le_refl s, by omega⟩
          have hPs := hmem _ hsmem
          have hPsk : s + (selIndices wave b lo hi).length ∈ selIndices wave b lo hi := by
            apply List.mem_filter.mpr
            constructor
            · exact List.mem_range.mpr hlt
            · simp only [Bool.and_eq_true, decide_eq_true_eq]
              constructor
              · exact lt_of_lt_of_le hPs.2.1 (hmono (by omega))
              · exact le_trans (hmono (le_of_lt hlt)) hPb.2
          rw [hs] at hPsk
          simp only [List.length_range'] at hPsk
          have := (List.mem_range'_1.mp hPsk).2
          omega
        refine ⟨s, ?_⟩
        rw [List.length_append, hs, List.length_range']
        rw [show (selIndices wave b lo hi).length + [b].length =
          (selIndices wave b lo hi).length + 1 from rfl]
        rw [List.range'_concat]
        congr 2
        omega
    · have hfb : List.filter (fun j => decide (lo < wave j) && decide (wave j ≤ hi)) [b] =
          [] := by
        have hpb' : ¬((decide (lo < wave b) && decide (wave b ≤ hi)) = true) := by
          simp only [Bool.and_eq_true, decide_eq_true_eq]
          exact hPb
        rw [List.filter_cons, if_neg hpb', List.filter_nil]
      rw [hstep, hfb, List.append_nil]
      exact ⟨s, hs⟩

/-- Twice the sum of the real casts of `range' s k` is `k·(2s + k − 1)`. -/
theorem two_mul_sum_range' (s : ℕ) : ∀ k : ℕ,
    2 * ((List.range' s k).map fun i : ℕ => (i : ℝ)).sum = k * (2 * s + k - 1) := by
  intro k
  induction k with
  | zero => simp
  | succ k ih =>
    rw [List.range'_concat, List.map_append, List.sum_append]
    simp only [one_mul, List.map_cons, List.map_nil, List.sum_cons, List.sum_nil, add_zero]
    push_cast
    push_cast at ih
    ring_nf
    ring_nf at ih
    linarith

/-- The mean of the run `s, s+1, …, s+k` is `s + k/2`. -/
theorem npMeanNat_range' (s k : ℕ) :
    npMeanNat (List.range' s (k + 1)) = s + (k : ℝ) / 2 := by
  rw [npMeanNat, List.length_range']
  have h2 := two_mul_sum_range' s (k + 1)
  have hk : ((k : ℕ) + 1 : ℝ) ≠ 0 := by positivity
  have hsum : ((List.range' s (k + 1)).map fun i : ℕ => (i : ℝ)).sum =
      ((k : ℝ) + 1) * ((s : ℝ) + (k : ℝ) / 2) := by
    push_cast at h2
    ring_nf
    ring_nf at h2
    linarith
  rw [hsum]
  push_cast
  field_simp
  ring

/-- Truncating the mean of a run of consecutive integers gives an integer
at minimal distance from the mean (ties broken downward). -/
theorem chunkRep_nearest (s k : ℕ) (z : ℤ) :
    |(chunkRep (List.range' s (k + 1)) : ℝ) - npMeanNat (List.range' s (k + 1))| ≤
      |(z : ℝ) - npMeanNat (List.range' s (k + 1))| := by
  simp only [chunkRep, truncInt, npMeanNat_range']
  rw [if_pos (by positivity : (0 : ℝ) ≤ (s : ℝ) + (k : ℝ) / 2)]
  rcases Nat.even_or_odd k with ⟨u, hu⟩ | ⟨u, hu⟩
  · have hm : (s : ℝ) + (k : ℝ) / 2 = ((s + u : ℕ) : ℝ) := by
      push_cast
      rw [hu]
      push_cast
      ring
    rw [hm, Int.floor_natCast]
    simp only [Int.cast_natCast, sub_self, abs_zero]
    exact abs_nonneg _
  · have hm : (s : ℝ) + (k : ℝ) / 2 = ((s + u : ℕ) : ℝ) + 1 / 2 := by
      push_cast
      rw [hu]
      push_cast
      ring
    rw [hm]
    have hfl : ⌊((s + u : ℕ) : ℝ) + 1 / 2⌋ = ((s + u : ℕ) : ℤ) := by
      rw [show ((s + u : ℕ) : ℝ) = (((s + u : ℕ) : ℤ) : ℝ) from by push_cast; ring,
        Int.floor_int_add]
      norm_num
    rw [hfl]
    have hL : |(((s + u : ℕ) : ℤ) : ℝ) - (((s + u : ℕ) : ℝ) + 1 / 2)| = 1 / 2 := by
      rw [show (((s + u : ℕ) : ℤ) : ℝ) - (((s + u : ℕ) : ℝ) + 1 / 2) = -(1 / 2) from by
        push_cast; ring]
      rw [abs_neg, abs_of_nonneg (by norm_num)]
    rw [hL]
    have hzw : (z : ℝ) - (((s + u : ℕ) : ℝ) + 1 / 2) = ((z - (s + u : ℕ) : ℤ) : ℝ) - 1 / 2 := by
      push_cast
      ring
    rw [hzw]
    rcases le_or_lt (z - (s + u : ℕ) : ℤ) 0 with hw | hw
    · have hwr : ((z - (s + u : ℕ) : ℤ) : ℝ) ≤ 0 := by exact_mod_cast hw
      calc (1 : ℝ) / 2 ≤ -(((z - (s + u : ℕ) : ℤ) : ℝ) - 1 / 2) := by linarith
      _ ≤ |((z - (s + u : ℕ) : ℤ) : ℝ) - 1 / 2| := neg_le_abs _
    · have hw1 : (1 : ℤ) ≤ z - (s + u : ℕ) := hw
      have hwr : (1 : ℝ) ≤ ((z - (s + u : ℕ) : ℤ) : ℝ) := by exact_mod_cast hw1
      calc (1 : ℝ) / 2 ≤ ((z - (s + u : ℕ) : ℤ) : ℝ) - 1 / 2 := by linarith
      _ ≤ |((z - (s + u : ℕ) : ℤ) : ℝ) - 1 / 2| := le_abs_self _

/-! ## Weight-matrix builder: `Extract.build_weights` -/

/-- Raveled `(x, y)` sample points of a PSF image
(`T = np.array([psf[1].ravel(), psf[2].ravel()]).swapaxes(0, 1)`). -/
def psfPoints (p : PSFImage) : List (ℝ × ℝ) :=
  (List.range p.n).flatMap fun i => (List.range p.m).map fun j => (p.xg i j, p.yg i j)

/-- Raveled intensity sample values of a PSF image (`psf[0].ravel()`). -/
def psfVals (p : PSFImage) : List ℝ :=
  (List.range p.n).flatMap fun i => (List.range p.m).map fun j => p.z i j

/-- Modelled from the spec: `scipy.interpolate.LinearNDInterpolator` is an
externally supplied capability ("exact/triangulated linear interpolation,
zero fill outside the convex hull").  `IsLinearNDInterp vals hull I` states
that the function `I` behaves as such an interpolant of the sample values
`vals` with fill value `0`: outside the hull it returns `0`, and at an
in-hull point its value is a convex (barycentric) combination of the
sample values. -/
def IsLinearNDInterp (vals : List ℝ) (hull : ℝ → ℝ → Prop) (I : ℝ → ℝ → ℝ) : Prop :=
  ∀ x y, (¬ hull x y → I x y = 0) ∧
    (hull x y → ∃ w : ℕ → ℝ, (∀ i, 0 ≤ w i) ∧
      (∑ i ∈ Finset.range vals.length, w i) = 1 ∧
      I x y = ∑ i ∈ Finset.range vals.length, w i * vals.getD i 0)

/-- Model of `Extract.build_weights`: for every fiber `f` and wavelength index `i`,
evaluate the PSF interpolant `I` at the ADR-shifted, re-centered fiber
position and scale by `fiber_area / pixel_area` (pixel pitch taken from the
PSF x-grid spacing). -/
def build_weights (xc yc : ℝ) (ifux ifuy : ℕ → ℝ) (ADRx ADRy : ℕ → ℝ)
    (psf : PSFImage) (I : ℝ → ℝ → ℝ) : ℕ → ℕ → ℝ :=
  let scale := |psf.xg 0 1 - psf.xg 0 0|
  let area := 0.75 ^ 2 * Real.pi
  fun f i => I (ifux f - ADRx i - xc) (ifuy f - ADRy i - yc) * area / scale ^ 2

/-- Every raveled sample value of a PSF image with non-negative intensity
is non-negative. -/
theorem psfVals_getD_nonneg (p : PSFImage)
    (hz : ∀ i j, i < p.n → j < p.m → 0 ≤ p.z i j)
    (i : ℕ) (hi : i < (psfVals p).length) : 0 ≤ (psfVals p).getD i 0 := by
  rw [List.getD_eq_getElem _ _ hi]
  have hmem : (psfVals p)[i] ∈ psfVals p := List.getElem_mem hi
  rcases List.mem_flatMap.mp hmem with ⟨a, ha, hmem2⟩
  rcases List.mem_map.mp hmem2 with ⟨b, hb, he⟩
  rw [← he]
  exact hz a b (List.mem_range.mp ha) (List.mem_range.mp hb)

end Remedy

namespace Remedy

/-- C1: per wavelength channel, `get_spectrum` computes
`spectrum = Σ(data·mask·weight) / Σ(mask·weight²)` and
`spectrum_error = sqrt(Σ(error²·mask·weight)) / Σ(mask·weight²)` over the
fibers, before any channel masking is applied. -/
theorem claim1_get_spectrum_formulas (nf : ℕ) (data error mask weights : ℕ → ℕ → ℝ)
    (j : ℕ) :
    spectrumRaw nf data mask weights j =
      (∑ f ∈ Finset.range nf, data f j * mask f j * weights f j) /
      (∑ f ∈ Finset.range nf, mask f j * weights f j ^ 2) ∧
    spectrumErrorRaw nf error mask weights j =
      Real.sqrt (∑ f ∈ Finset.range nf, error f j ^ 2 * mask f j * weights f j) /
      (∑ f ∈ Finset.range nf, mask f j * weights f j ^ 2) :=
  ⟨rfl, rfl⟩

/-- C2: after the raw per-channel values are computed, `get_spectrum` sets
every channel whose total weight `w = Σ(mask·weight²)` satisfies
`w < 0.1 · median(w)` (median over the full channel set) to NaN in both
outputs, and leaves every other channel at its raw computed value. -/
theorem claim2_get_spectrum_low_weight_masking (nf nw : ℕ)
    (data error mask weights : ℕ → ℕ → ℝ) (j : ℕ) :
    (get_spectrum nf nw data error mask weights).1 j =
      (if wTot nf mask weights j <
          0.1 * npMedian ((List.range nw).map (wTot nf mask weights))
       then none else some (spectrumRaw nf data mask weights j)) ∧
    (get_spectrum nf nw data error mask weights).2 j =
      (if wTot nf mask weights j <
          0.1 * npMedian ((List.range nw).map (wTot nf mask weights))
       then none else some (spectrumErrorRaw nf error mask weights j)) := by
  rw [mul_comm (0.1 : ℝ)]
  exact ⟨rfl, rfl⟩

/-- C3: for non-negative `d`, `R`, `r`, `intersection_area` returns
`π·min(R,r)²` when `d ≤ |R−r|`, `0` when `d ≥ R+r`, and otherwise the
two-circular-segment value with `α = arccos((d²+r²−R²)/(2dr))` and
`β = arccos((d²+R²−r²)/(2dR))`. -/
theorem claim3_intersection_area_cases (d R r : ℝ) (hd : 0 ≤ d) (hR : 0 ≤ R) (hr : 0 ≤ r) :
    (d ≤ |R - r| → intersection_area d R r = Real.pi * min R r ^ 2) ∧
    (d ≥ R + r → intersection_area d R r = 0) ∧
    (|R - r| < d → d < R + r →
      intersection_area d R r =
        r ^ 2 * Real.arccos ((d ^ 2 + r ^ 2 - R ^ 2) / (2 * d * r)) +
        R ^ 2 * Real.arccos ((d ^ 2 + R ^ 2 - r ^ 2) / (2 * d * R)) -
        0.5 * (r ^ 2 * Real.sin (2 * Real.arccos ((d ^ 2 + r ^ 2 - R ^ 2) / (2 * d * r))) +
               R ^ 2 * Real.sin (2 * Real.arccos ((d ^ 2 + R ^ 2 - r ^ 2) / (2 * d * R))))) := by
  refine ⟨fun h => by rw [intersection_area, if_pos h], fun h => ?_, fun h1 h2 => ?_⟩
  · by_cases hle : d ≤ |R - r|
    · rw [intersection_area, if_pos hle]
      have hmin : min R r = 0 := by
        rcases le_total R r with hc | hc
        · have habs : |R - r| = r - R := by rw [abs_sub_comm, abs_of_nonneg (by linarith)]
          rw [min_eq_left hc]
          rw [habs] at hle
          linarith
        · have habs : |R - r| = R - r := abs_of_nonneg (by linarith)
          rw [min_eq_right hc]
          rw [habs] at hle
          linarith
      rw [hmin]
      ring
    · rw [intersection_area, if_neg hle, if_pos (by linarith : d ≥ r + R)]
  · rw [intersection_area, if_neg (not_le.mpr h1),
      if_neg (by simp only [ge_iff_le, not_le]; linarith)]

/-- Witness for C3 at `d = 1`, `R = 1`, `r = 1`. -/
theorem claim3_intersection_area_cases_witness :
    ((1 : ℝ) ≤ |(1 : ℝ) - 1| → intersection_area 1 1 1 = Real.pi * min (1 : ℝ) 1 ^ 2) ∧
    ((1 : ℝ) ≥ 1 + 1 → intersection_area 1 1 1 = 0) ∧
    (|(1 : ℝ) - 1| < 1 → (1 : ℝ) < 1 + 1 →
      intersection_area 1 1 1 =
        1 ^ 2 * Real.arccos (((1 : ℝ) ^ 2 + 1 ^ 2 - 1 ^ 2) / (2 * 1 * 1)) +
        1 ^ 2 * Real.arccos (((1 : ℝ) ^ 2 + 1 ^ 2 - 1 ^ 2) / (2 * 1 * 1)) -
        0.5 * (1 ^ 2 * Real.sin (2 * Real.arccos (((1 : ℝ) ^ 2 + 1 ^ 2 - 1 ^ 2) / (2 * 1 * 1))) +
               1 ^ 2 * Real.sin (2 * Real.arccos (((1 : ℝ) ^ 2 + 1 ^ 2 - 1 ^ 2) / (2 * 1 * 1))))) :=
  claim3_intersection_area_cases 1 1 1 (by norm_num) (by norm_num) (by norm_num)

/-- C10: when the two-segment branch of `intersection_area` is reached with
non-negative inputs, `d`, `r`, `R` are strictly positive, both normalized
chord positions lie strictly inside `(-1, 1)` (so `arccos` is never fed an
out-of-range argument and no division by zero occurs), and the returned
value is non-negative. -/
theorem claim10_intersection_area_segment_safety (d R r : ℝ)
    (hd : 0 ≤ d) (hR : 0 ≤ R) (hr : 0 ≤ r)
    (h1 : |R - r| < d) (h2 : d < R + r) :
    0 < d ∧ 0 < r ∧ 0 < R ∧
    (d ^ 2 + r ^ 2 - R ^ 2) / (2 * d * r) ∈ Set.Ioo (-1 : ℝ) 1 ∧
    (d ^ 2 + R ^ 2 - r ^ 2) / (2 * d * R) ∈ Set.Ioo (-1 : ℝ) 1 ∧
    0 ≤ intersection_area d R r := by
  have hd' : 0 < d := lt_of_le_of_lt (abs_nonneg _) h1
  have hr' : 0 < r := by
    rcases hr.lt_or_eq with h | h
    · exact h
    · exfalso
      rw [← h, sub_zero, abs_of_nonneg hR] at h1
      linarith
  have hR' : 0 < R := by
    rcases hR.lt_or_eq with h | h
    · exact h
    · exfalso
      rw [← h, zero_sub, abs_neg, abs_of_nonneg hr] at h1
      linarith
  have ha : (d ^ 2 + r ^ 2 - R ^ 2) / (2 * d * r) ∈ Set.Ioo (-1 : ℝ) 1 :=
    chord_arg_mem_Ioo d R r hR h1 h2 hd' hr'
  have hb : (d ^ 2 + R ^ 2 - r ^ 2) / (2 * d * R) ∈ Set.Ioo (-1 : ℝ) 1 :=
    chord_arg_mem_Ioo d r R hr (by rwa [abs_sub_comm]) (by linarith) hd' hR'
  refine ⟨hd', hr', hR', ha, hb, ?_⟩
  rw [intersection_area, if_neg (not_le.mpr h1),
    if_neg (by simp only [ge_iff_le, not_le]; linarith)]
  set a := Real.arccos ((d ^ 2 + r ^ 2 - R ^ 2) / (2 * d * r)) with ha_def
  set b := Real.arccos ((d ^ 2 + R ^ 2 - r ^ 2) / (2 * d * R)) with hb_def
  have ha0 : 0 ≤ a := Real.arccos_nonneg _
  have hb0 : 0 ≤ b := Real.arccos_nonneg _
  have hs1 : Real.sin (2 * a) ≤ 2 * a := Real.sin_le (by linarith)
  have hs2 : Real.sin (2 * b) ≤ 2 * b := Real.sin_le (by linarith)
  have k1 : 0 ≤ r ^ 2 * (2 * a - Real.sin (2 * a)) :=
    mul_nonneg (sq_nonneg r) (by linarith)
  have k2 : 0 ≤ R ^ 2 * (2 * b - Real.sin (2 * b)) :=
    mul_nonneg (sq_nonneg R) (by linarith)
  nlinarith [k1, k2]

/-- C5: for a PSF image with non-negative intensity and positive total in
the restricted window, `get_psf_curve_of_growth` returns radii sorted
non-decreasingly, all at most the maximum x-grid value, and a
cumulative-fraction sequence that is non-decreasing with final element `1`. -/
theorem claim5_curve_of_growth (p : PSFImage)
    (hz : ∀ i j, i < p.n → j < p.m → 0 ≤ p.z i j)
    (ht : 0 < ((cogSel p).map Prod.snd).sum) :
    List.Sorted (· ≤ ·) (get_psf_curve_of_growth p).1 ∧
    (∀ x ∈ (get_psf_curve_of_growth p).1, x ≤ cogMaxr p) ∧
    List.Sorted (· ≤ ·) (get_psf_curve_of_growth p).2 ∧
    (get_psf_curve_of_growth p).2.getLast? = some 1 := by
  have hnn : ∀ x ∈ (cogSel p).map Prod.snd, 0 ≤ x := by
    intro x hx
    rcases List.mem_map.mp hx with ⟨q, hq, hxe⟩
    rcases cogSel_mem_z p q hq with ⟨i, j, hi, hj, hqz⟩
    rw [← hxe, hqz]
    exact hz i j hi hj
  have hselPW : List.Pairwise (fun a b : ℝ × ℝ => a.1 ≤ b.1) (cogSel p) :=
    List.Pairwise.sublist (List.filter_sublist _) (cogSorted_pairwise p)
  refine ⟨?_, ?_, ?_, ?_⟩
  · exact List.pairwise_map.mpr hselPW
  · intro x hx
    rcases List.mem_map.mp hx with ⟨q, hq, hxe⟩
    have := (List.mem_filter.mp hq).2
    rw [decide_eq_true_eq] at this
    rwa [← hxe]
  · refine List.pairwise_map.mpr ((List.pairwise_lt_range _).imp ?_)
    intro k k' hkk
    rw [div_le_div_iff_of_pos_right ht, List.map_take, List.map_take]
    exact take_sum_mono _ hnn (by omega)
  · have hlen : 0 < (cogSel p).length := by
      rcases Nat.eq_zero_or_pos (cogSel p).length with h0 | h
      · exfalso
        rw [List.length_eq_zero.mp h0] at ht
        simp at ht
      · exact h
    have hL : ((List.range (cogSel p).length).map fun k =>
        (((cogSel p).take (k + 1)).map Prod.snd).sum /
          ((cogSel p).map Prod.snd).sum).length = (cogSel p).length := by
      rw [List.length_map, List.length_range]
    rw [get_psf_curve_of_growth, List.getLast?_eq_getElem?, hL, List.getElem?_map,
      List.getElem?_range (by omega : (cogSel p).length - 1 < (cogSel p).length)]
    have harg : (cogSel p).length - 1 + 1 = (cogSel p).length := by omega
    rw [Option.map_some', harg, List.take_of_length_le (le_refl _)]
    rw [div_self (ne_of_gt ht)]

/-- Witness for C5 on a `1 × 1` PSF image with intensity `1` at the origin. -/
theorem claim5_curve_of_growth_witness :
    (∀ i j, i < (⟨1, 1, fun _ _ => 1, fun _ _ => 0, fun _ _ => 0⟩ : PSFImage).n →
      j < (⟨1, 1, fun _ _ => 1, fun _ _ => 0, fun _ _ => 0⟩ : PSFImage).m →
      (0 : ℝ) ≤ (⟨1, 1, fun _ _ => 1, fun _ _ => 0, fun _ _ => 0⟩ : PSFImage).z i j) ∧
    0 < ((cogSel ⟨1, 1, fun _ _ => 1, fun _ _ => 0, fun _ _ => 0⟩).map Prod.snd).sum ∧
    (List.Sorted (· ≤ ·)
        (get_psf_curve_of_growth ⟨1, 1, fun _ _ => 1, fun _ _ => 0, fun _ _ => 0⟩).1 ∧
      (∀ x ∈ (get_psf_curve_of_growth ⟨1, 1, fun _ _ => 1, fun _ _ => 0, fun _ _ => 0⟩).1,
        x ≤ cogMaxr ⟨1, 1, fun _ _ => 1, fun _ _ => 0, fun _ _ => 0⟩) ∧
      List.Sorted (· ≤ ·)
        (get_psf_curve_of_growth ⟨1, 1, fun _ _ => 1, fun _ _ => 0, fun _ _ => 0⟩).2 ∧
      (get_psf_curve_of_growth
        ⟨1, 1, fun _ _ => 1, fun _ _ => 0, fun _ _ => 0⟩).2.getLast? = some 1) := by
  have hz : ∀ i j, i < (⟨1, 1, fun _ _ => 1, fun _ _ => 0, fun _ _ => 0⟩ : PSFImage).n →
      j < (⟨1, 1, fun _ _ => 1, fun _ _ => 0, fun _ _ => 0⟩ : PSFImage).m →
      (0 : ℝ) ≤ (⟨1, 1, fun _ _ => 1, fun _ _ => 0, fun _ _ => 0⟩ : PSFImage).z i j :=
    fun _ _ _ _ => zero_le_one
  have hpairs : cogPairs ⟨1, 1, fun _ _ => 1, fun _ _ => 0, fun _ _ => 0⟩ =
      [((0 : ℝ), (1 : ℝ))] := by
    simp [cogPairs, List.range_succ]
  have hsorted : cogSorted ⟨1, 1, fun _ _ => 1, fun _ _ => 0, fun _ _ => 0⟩ =
      [((0 : ℝ), (1 : ℝ))] := by
    rw [cogSorted, hpairs]
    exact List.perm_singleton.mp (List.mergeSort_perm _ _)
  have hmaxr : cogMaxr ⟨1, 1, fun _ _ => 1, fun _ _ => 0, fun _ _ => 0⟩ = 0 := by
    simp [cogMaxr, npMaxList, List.range_succ]
  have hsel : cogSel ⟨1, 1, fun _ _ => 1, fun _ _ => 0, fun _ _ => 0⟩ =
      [((0 : ℝ), (1 : ℝ))] := by
    rw [cogSel, hsorted, hmaxr]
    simp
  have ht : 0 < ((cogSel ⟨1, 1, fun _ _ => 1, fun _ _ => 0, fun _ _ => 0⟩).map
      Prod.snd).sum := by
    rw [hsel]
    norm_num
  exact ⟨hz, ht, claim5_curve_of_growth _ hz ht⟩

/-- C6: for every chunk of the selected index set produced by
`make_collapsed_image` on a monotone wavelength grid, the representative
ADR index `chunkRep` (the chunk mean cast to `int`, exactly as the code
truncates it) is an integer nearest to the chunk's mean index: no integer
is strictly closer (half-integer ties are broken downward by the
truncation). -/
theorem claim6_chunk_adr_index_nearest_mean (wave : ℕ → ℝ) (b : ℕ) (lo hi : ℝ)
    (nchunks : ℕ) (hmono : Monotone wave) (c : List ℕ)
    (hc : c ∈ array_split (selIndices wave b lo hi) nchunks) (hne : c ≠ []) (z : ℤ) :
    |(chunkRep c : ℝ) - npMeanNat c| ≤ |(z : ℝ) - npMeanNat c| := by
  rcases selIndices_eq_range' wave lo hi hmono b with ⟨s, hs⟩
  rw [array_split, hs] at hc
  rcases arraySplitGo_range' _ _ _ _ hc with ⟨s', k', hck⟩
  cases k' with
  | zero => exact absurd (hck.trans rfl) hne
  | succ k =>
    rw [hck]
    exact chunkRep_nearest s' k z

/-- Witness for C6: grid `wave j = j` on 2 channels, window `(-1, 10]`,
one chunk, compared against the integer `5`. -/
theorem claim6_chunk_adr_index_nearest_mean_witness :
    Monotone (fun j : ℕ => (j : ℝ)) ∧
    ([0, 1] : List ℕ) ∈ array_split (selIndices (fun j : ℕ => (j : ℝ)) 2 (-1) 10) 1 ∧
    ([0, 1] : List ℕ) ≠ [] ∧
    |(chunkRep [0, 1] : ℝ) - npMeanNat [0, 1]| ≤ |((5 : ℤ) : ℝ) - npMeanNat [0, 1]| := by
  have hm : Monotone (fun j : ℕ => (j : ℝ)) := fun x y h => Nat.cast_le.mpr h
  have hsel : selIndices (fun j : ℕ => (j : ℝ)) 2 (-1) 10 = [0, 1] := by
    rw [selIndices, List.range_succ, List.range_succ, List.range_zero]
    norm_num [List.filter]
  have hc : ([0, 1] : List ℕ) ∈ array_split (selIndices (fun j : ℕ => (j : ℝ)) 2 (-1) 10) 1 := by
    rw [hsel]
    simp [array_split, splitSizes, arraySplitGo, List.range_succ]
  have hne : ([0, 1] : List ℕ) ≠ [] := by simp
  exact ⟨hm, hc, hne,
    claim6_chunk_adr_index_nearest_mean (fun j : ℕ => (j : ℝ)) 2 (-1) 10 1 hm [0, 1] hc hne 5⟩

/-- C7: the wavelength indices selected for collapsing in
`make_collapsed_image` are exactly those with `wave j > wrange_low` and
`wave j ≤ wrange_high` (low bound exclusive, high bound inclusive). -/
theorem claim7_wavelength_selection (wave : ℕ → ℝ) (b : ℕ) (lo hi : ℝ) (j : ℕ) :
    j ∈ selIndices wave b lo hi ↔ j < b ∧ lo < wave j ∧ wave j ≤ hi := by
  simp [selIndices, List.mem_filter, List.mem_range, and_assoc]

/-- C9: for any `interp_kind` other than `"linear"` or `"cubic"`,
`make_collapsed_image` logs warnings, substitutes `"linear"`, and returns
the same image and coordinate grids as `interp_kind = "linear"` on the
same inputs. -/
theorem claim9_invalid_interp_kind_fallback
    (gd : String → List (ℝ × ℝ) → List ℝ → ℝ → ℝ → Option ℝ)
    (conv : ℝ → (ℕ → ℕ → Option ℝ) → (ℕ → ℕ → Option ℝ))
    (wave : ℕ → ℝ) (ADRx ADRy : ℤ → ℝ)
    (xc yc : ℝ) (xloc yloc : ℕ → ℝ) (data mask : ℕ → ℕ → ℝ) (a b : ℕ)
    (scale seeing_fac boxsize wlo whi : ℝ) (nchunks : ℕ)
    (convolve_image : Bool) (interp_kind : String)
    (h1 : interp_kind ≠ "linear") (h2 : interp_kind ≠ "cubic") :
    (make_collapsed_image gd conv wave ADRx ADRy xc yc xloc yloc data mask a b
        scale seeing_fac boxsize wlo whi nchunks convolve_image interp_kind).warnings ≠ [] ∧
    (make_collapsed_image gd conv wave ADRx ADRy xc yc xloc yloc data mask a b
        scale seeing_fac boxsize wlo whi nchunks convolve_image interp_kind).img =
      (make_collapsed_image gd conv wave ADRx ADRy xc yc xloc yloc data mask a b
        scale seeing_fac boxsize wlo whi nchunks convolve_image "linear").img ∧
    (make_collapsed_image gd conv wave ADRx ADRy xc yc xloc yloc data mask a b
        scale seeing_fac boxsize wlo whi nchunks convolve_image interp_kind).xg =
      (make_collapsed_image gd conv wave ADRx ADRy xc yc xloc yloc data mask a b
        scale seeing_fac boxsize wlo whi nchunks convolve_image "linear").xg ∧
    (make_collapsed_image gd conv wave ADRx ADRy xc yc xloc yloc data mask a b
        scale seeing_fac boxsize wlo whi nchunks convolve_image interp_kind).yg =
      (make_collapsed_image gd conv wave ADRx ADRy xc yc xloc yloc data mask a b
        scale seeing_fac boxsize wlo whi nchunks convolve_image "linear").yg := by
  have hbad : normalizeInterpKind interp_kind =
      ("linear",
        ["interp_kind must be \"linear\" or \"cubic\"",
         "Using \"linear\" for interp_kind"]) := by
    rw [normalizeInterpKind, if_neg]
    rintro (h | h)
    · exact h1 h
    · exact h2 h
  have hlin : normalizeInterpKind "linear" = ("linear", []) := by
    rw [normalizeInterpKind, if_pos (Or.inl rfl)]
  refine ⟨?_, ?_, ?_, ?_⟩ <;>
    simp only [make_collapsed_image, hbad, hlin] <;>
    simp

/-- Witness for C9 with `interp_kind = "quadratic"` on trivial inputs. -/
theorem claim9_invalid_interp_kind_fallback_witness :
    (make_collapsed_image (fun _ _ _ _ _ => some 0) (fun _ g => g) (fun _ => 0)
        (fun _ => 0) (fun _ => 0) 0 0 (fun _ => 0) (fun _ => 0) (fun _ _ => 0)
        (fun _ _ => 0) 0 0 1 1 4 0 1 1 false "quadratic").warnings ≠ [] ∧
    (make_collapsed_image (fun _ _ _ _ _ => some 0) (fun _ g => g) (fun _ => 0)
        (fun _ => 0) (fun _ => 0) 0 0 (fun _ => 0) (fun _ => 0) (fun _ _ => 0)
        (fun _ _ => 0) 0 0 1 1 4 0 1 1 false "quadratic").img =
      (make_collapsed_image (fun _ _ _ _ _ => some 0) (fun _ g => g) (fun _ => 0)
        (fun _ => 0) (fun _ => 0) 0 0 (fun _ => 0) (fun _ => 0) (fun _ _ => 0)
        (fun _ _ => 0) 0 0 1 1 4 0 1 1 false "linear").img ∧
    (make_collapsed_image (fun _ _ _ _ _ => some 0) (fun _ g => g) (fun _ => 0)
        (fun _ => 0) (fun _ => 0) 0 0 (fun _ => 0) (fun _ => 0) (fun _ _ => 0)
        (fun _ _ => 0) 0 0 1 1 4 0 1 1 false "quadratic").xg =
      (make_collapsed_image (fun _ _ _ _ _ => some 0) (fun _ g => g) (fun _ => 0)
        (fun _ => 0) (fun _ => 0) 0 0 (fun _ => 0) (fun _ => 0) (fun _ _ => 0)
        (fun _ _ => 0) 0 0 1 1 4 0 1 1 false "linear").xg ∧
    (make_collapsed_image (fun _ _ _ _ _ => some 0) (fun _ g => g) (fun _ => 0)
        (fun _ => 0) (fun _ => 0) 0 0 (fun _ => 0) (fun _ => 0) (fun _ _ => 0)
        (fun _ _ => 0) 0 0 1 1 4 0 1 1 false "quadratic").yg =
      (make_collapsed_image (fun _ _ _ _ _ => some 0) (fun _ g => g) (fun _ => 0)
        (fun _ => 0) (fun _ => 0) 0 0 (fun _ => 0) (fun _ => 0) (fun _ _ => 0)
        (fun _ _ => 0) 0 0 1 1 4 0 1 1 false "linear").yg :=
  claim9_invalid_interp_kind_fallback (fun _ _ _ _ _ => some 0) (fun _ g => g)
    (fun _ => 0) (fun _ => 0) (fun _ => 0) 0 0 (fun _ => 0) (fun _ => 0)
    (fun _ _ => 0) (fun _ _ => 0) 0 0 1 1 4 0 1 1 false "quadratic"
    (by decide) (by decide)

/-- C8: when the PSF intensity layer is non-negative, every entry of the
weight matrix returned by `build_weights` is non-negative, and a fiber
whose ADR-shifted position falls outside the PSF sample support (the
convex hull seen by the interpolator) receives weight exactly `0` at that
wavelength. -/
theorem claim8_build_weights_nonneg_and_hull_zero (xc yc : ℝ)
    (ifux ifuy ADRx ADRy : ℕ → ℝ) (psf : PSFImage)
    (hull : ℝ → ℝ → Prop) (I : ℝ → ℝ → ℝ)
    (hz : ∀ i j, i < psf.n → j < psf.m → 0 ≤ psf.z i j)
    (hI : IsLinearNDInterp (psfVals psf) hull I) :
    (∀ f i, 0 ≤ build_weights xc yc ifux ifuy ADRx ADRy psf I f i) ∧
    (∀ f i, ¬ hull (ifux f - ADRx i - xc) (ifuy f - ADRy i - yc) →
      build_weights xc yc ifux ifuy ADRx ADRy psf I f i = 0) := by
  have hInn : ∀ x y, 0 ≤ I x y := by
    intro x y
    by_cases hh : hull x y
    · rcases (hI x y).2 hh with ⟨w, hw0, hw1, hIeq⟩
      rw [hIeq]
      refine Finset.sum_nonneg fun i hi => ?_
      exact mul_nonneg (hw0 i) (psfVals_getD_nonneg psf hz i (Finset.mem_range.mp hi))
    · rw [(hI x y).1 hh]
  constructor
  · intro f i
    simp only [build_weights]
    have harea : (0 : ℝ) ≤ 0.75 ^ 2 * Real.pi := by positivity
    exact div_nonneg (mul_nonneg (hInn _ _) harea) (sq_nonneg _)
  · intro f i hout
    simp only [build_weights]
    rw [(hI _ _).1 hout, zero_mul, zero_div]

/-- Witness for C8: an all-zero `1 × 1` PSF with the empty hull and the
zero interpolant. -/
theorem claim8_build_weights_nonneg_and_hull_zero_witness :
    (∀ i j, i < (⟨1, 1, fun _ _ => 0, fun _ _ => 0, fun _ _ => 0⟩ : PSFImage).n →
      j < (⟨1, 1, fun _ _ => 0, fun _ _ => 0, fun _ _ => 0⟩ : PSFImage).m →
      (0 : ℝ) ≤ (⟨1, 1, fun _ _ => 0, fun _ _ => 0, fun _ _ => 0⟩ : PSFImage).z i j) ∧
    IsLinearNDInterp (psfVals ⟨1, 1, fun _ _ => 0, fun _ _ => 0, fun _ _ => 0⟩)
      (fun _ _ => False) (fun _ _ => 0) ∧
    ((∀ f i, 0 ≤ build_weights 0 0 (fun _ => 0) (fun _ => 0) (fun _ => 0) (fun _ => 0)
        ⟨1, 1, fun _ _ => 0, fun _ _ => 0, fun _ _ => 0⟩ (fun _ _ => 0) f i) ∧
     (∀ f i, ¬ (fun _ _ : ℝ => False) ((fun _ : ℕ => (0 : ℝ)) f - (fun _ : ℕ => (0 : ℝ)) i - 0)
          ((fun _ : ℕ => (0 : ℝ)) f - (fun _ : ℕ => (0 : ℝ)) i - 0) →
       build_weights 0 0 (fun _ => 0) (fun _ => 0) (fun _ => 0) (fun _ => 0)
        ⟨1, 1, fun _ _ => 0, fun _ _ => 0, fun _ _ => 0⟩ (fun _ _ => 0) f i = 0)) := by
  have hz : ∀ i j, i < (⟨1, 1, fun _ _ => 0, fun _ _ => 0, fun _ _ => 0⟩ : PSFImage).n →
      j < (⟨1, 1, fun _ _ => 0, fun _ _ => 0, fun _ _ => 0⟩ : PSFImage).m →
      (0 : ℝ) ≤ (⟨1, 1, fun _ _ => 0, fun _ _ => 0, fun _ _ => 0⟩ : PSFImage).z i j :=
    fun _ _ _ _ => le_refl 0
  have hI : IsLinearNDInterp (psfVals ⟨1, 1, fun _ _ => 0, fun _ _ => 0, fun _ _ => 0⟩)
      (fun _ _ => False) (fun _ _ => 0) :=
    fun _ _ => ⟨fun _ => rfl, fun h => h.elim⟩
  exact ⟨hz, hI,
    claim8_build_weights_nonneg_and_hull_zero 0 0 (fun _ => 0) (fun _ => 0) (fun _ => 0)
      (fun _ => 0) ⟨1, 1, fun _ _ => 0, fun _ _ => 0, fun _ _ => 0⟩ (fun _ _ => False)
      (fun _ _ => 0) hz hI⟩

/-- C4: each of the three PSF builders returns a 3-layer array whose
intensity layer sums to exactly `1` (in the real-number model): the
Gaussian and Moffat profiles are strictly positive on the nonempty grid,
and the tophat builder normalizes by its own total (which the caller must
keep nonzero, the documented validity condition). -/
theorem claim4_psf_builders_normalized (gd : GridDataOracle)
    (radius fibradius xstd ystd theta seeing alpha boxsize scale : ℝ)
    (hs : 0 < scale) (hb : 0 ≤ boxsize)
    (ht : sumZ (tophatRaw gd radius boxsize scale fibradius) ≠ 0) :
    sumZ (tophat_psf gd radius boxsize scale fibradius) = 1 ∧
    sumZ (gaussian_psf xstd ystd theta boxsize scale) = 1 ∧
    sumZ (moffat_psf seeing boxsize scale alpha) = 1 := by
  refine ⟨sumZ_normalizePSF _ ht, sumZ_normalizePSF _ ?_, sumZ_normalizePSF _ ?_⟩
  · exact ne_of_gt (sumZ_pos_of_pos _ (psfGridN_pos _ _ hs hb) (psfGridN_pos _ _ hs hb)
      (fun i j => gaussian2D_pos _ _ _ _ _))
  · exact ne_of_gt (sumZ_pos_of_pos _ (psfGridN_pos _ _ hs hb) (psfGridN_pos _ _ hs hb)
      (fun i j => moffat2D_pos _ _ _ _))

/-- Witness for C4: a constant interpolation oracle on a `1 × 1` grid
(`boxsize = 0`, `scale = 1`). -/
theorem claim4_psf_builders_normalized_witness :
    (0 : ℝ) < 1 ∧ (0 : ℝ) ≤ 0 ∧
    sumZ (tophatRaw (fun _ _ _ _ => some 1) 1 0 1 0.75) ≠ 0 ∧
    (sumZ (tophat_psf (fun _ _ _ _ => some 1) 1 0 1 0.75) = 1 ∧
     sumZ (gaussian_psf 1 1 0 0 1) = 1 ∧
     sumZ (moffat_psf 1 0 1 3.5) = 1) := by
  have hN : psfGridN 0 1 = 1 := by
    rw [psfGridN, arangeLen]
    norm_num
  have ht : sumZ (tophatRaw (fun _ _ _ _ => some 1) 1 0 1 0.75) ≠ 0 := by
    have hsum : sumZ (tophatRaw (fun _ _ _ _ => some 1) 1 0 1 0.75) = 1 := by
      simp [sumZ, tophatRaw, hN]
    rw [hsum]
    norm_num
  exact ⟨by norm_num, le_refl 0, ht,
    claim4_psf_builders_normalized (fun _ _ _ _ => some 1) 1 0.75 1 1 0 1 3.5 0 1
      (by norm_num) (le_refl 0) ht⟩

/-- Witness for C10 at `d = 1`, `R = 1`, `r = 1`. -/
theorem claim10_intersection_area_segment_safety_witness :
    0 < (1 : ℝ) ∧ 0 < (1 : ℝ) ∧ 0 < (1 : ℝ) ∧
    ((1 : ℝ) ^ 2 + 1 ^ 2 - 1 ^ 2) / (2 * 1 * 1) ∈ Set.Ioo (-1 : ℝ) 1 ∧
    ((1 : ℝ) ^ 2 + 1 ^ 2 - 1 ^ 2) / (2 * 1 * 1) ∈ Set.Ioo (-1 : ℝ) 1 ∧
    0 ≤ intersection_area 1 1 1 :=
  claim10_intersection_area_segment_safety 1 1 1 (by norm_num) (by norm_num) (by norm_num)
    (by norm_num) (by norm_num)

end Remedy
